import Mathlib

/-!
Shallow embedding of the nasl-analyzer symbol-resolution engine.

The definitions below are translated from the Rust sources of the
repository (the complete snapshot: `nasl/src/types.rs`,
`nasl/src/interpret.rs`, `nasl/src/node_ext.rs`, `nasl/src/openvas_funcs.rs`
and `src/handler.rs`).  Machine floats (`f32`) are modelled by exact
rationals, byte-range slicing of ASCII source text by the node's own text,
and the external tree-sitter CST by an abstract node tree carrying kind,
text, positions, field children and named children.
-/

namespace NaslAnalyzer

/-- `tree_sitter::Point`: a (row, column) source position. -/
structure Point where
  row : Nat
  column : Nat
deriving DecidableEq, Repr

/-- `Point::default()` is row 0, column 0. -/
def Point.default : Point := ⟨0, 0⟩

/-- Lexicographic order on points: row first, then column. -/
def Point.lexLt (p q : Point) : Prop :=
  p.row < q.row ∨ (p.row = q.row ∧ p.column < q.column)

/-- Lexicographic non-strict order on points. -/
def Point.lexLe (p q : Point) : Prop :=
  p.row < q.row ∨ (p.row = q.row ∧ p.column ≤ q.column)

instance : DecidablePred (fun pq : Point × Point => Point.lexLt pq.1 pq.2) := by
  intro pq; unfold Point.lexLt; infer_instance

instance (p q : Point) : Decidable (Point.lexLt p q) := by
  unfold Point.lexLt; infer_instance

instance (p q : Point) : Decidable (Point.lexLe p q) := by
  unfold Point.lexLe; infer_instance

/-- `types.rs`: `to_pos(r, c) = r as f32 + c as f32 / 100.0`, read as the
specification's real number `row + column / 100`; the f32 rounding of the
implementation is modelled separately by `to_pos_f32` below. -/
def to_pos (r c : Nat) : ℚ := (r : ℚ) + (c : ℚ) / 100

/-- `types.rs`: an identifier with its source range and optional name.
The Rust field `end` is a Lean keyword, hence `endP`. -/
structure Identifier where
  start : Point
  endP : Point
  identifier : Option String
deriving DecidableEq, Repr

/-- `Identifier::as_pos`: scalar positions of the range ends. -/
def Identifier.as_pos (i : Identifier) : ℚ × ℚ :=
  (to_pos i.start.row i.start.column, to_pos i.endP.row i.endP.column)

/-- `Identifier::in_pos`: `pos >= start && pos <= end` on the scalars. -/
def Identifier.in_pos (i : Identifier) (pos : ℚ) : Bool :=
  let se := i.as_pos
  decide (pos ≥ se.1) && decide (pos ≤ se.2)

/-- `Identifier::matches`: `Some(name) == self.identifier`. -/
def Identifier.matches (i : Identifier) (name : String) : Bool :=
  some name == i.identifier

/-- `types.rs`: call arguments; only string literals are retained. -/
inductive Argument where
  | StringLiteral (id : Identifier)
deriving DecidableEq, Repr

/-- `Argument::to_string`: the inner identifier's name. -/
def Argument.to_string : Argument → Option String
  | .StringLiteral id => id.identifier

/-- `interpret.rs`: the resolution query (origin file, name, scalar position). -/
structure SearchParameter where
  origin : String
  name : String
  pos : ℚ
deriving DecidableEq, Repr

mutual

/-- `interpret.rs`: the tagged symbol entry. -/
inductive Jumpable where
  | FunDef (id : Identifier) (params : List Identifier)
  | IfDef (id : Identifier) (params : List Identifier)
  | Assign (id : Identifier)
  | Block (id : Identifier) (defs : NASLDefinitions)
  | CallExpression (id : Identifier) (args : List Argument)

/-- `interpret.rs`: the per-file symbol table. -/
inductive NASLDefinitions where
  | mk (definitions : List Jumpable) (origin : String) (includes : List String)

end

/-- Field projection: the ordered jump list. -/
def NASLDefinitions.definitions : NASLDefinitions → List Jumpable
  | .mk d _ _ => d

/-- Field projection: the origin file path. -/
def NASLDefinitions.origin : NASLDefinitions → String
  | .mk _ o _ => o

/-- Field projection: the extracted include names. -/
def NASLDefinitions.includes : NASLDefinitions → List String
  | .mk _ _ i => i

/-- `Jumpable::is_definition`: everything except a call expression. -/
def Jumpable.is_definition : Jumpable → Bool
  | .CallExpression _ _ => false
  | _ => true

/-- `interpret.rs::verify_args`: yield `id` on a name match; additionally,
when the origin matches and `id` spans the query position, yield every
argument whose name matches. -/
def verify_args (id : Identifier) (origin : String) (args : List Identifier)
    (defco : SearchParameter) : List Identifier :=
  (if id.matches defco.name then [id] else []) ++
    (if origin == defco.origin && id.in_pos defco.pos then
      args.filter (fun p => p.matches defco.name)
    else [])

/-- `interpret.rs::find_definitions`: flat-map the per-entry contributions,
descending into a `Block` only when the origin matches and the block spans
the query position. -/
def find_definitions (definitions : List Jumpable) (origin : String)
    (sp : SearchParameter) : List Identifier :=
  match definitions with
  | [] => []
  | Jumpable.Block id (NASLDefinitions.mk ds o _) :: rest =>
    (if origin == sp.origin && id.in_pos sp.pos then
      find_definitions ds o sp
    else []) ++ find_definitions rest origin sp
  | Jumpable.IfDef id params :: rest =>
    verify_args id origin params sp ++ find_definitions rest origin sp
  | Jumpable.FunDef id params :: rest =>
    verify_args id origin params sp ++ find_definitions rest origin sp
  | Jumpable.Assign id :: rest =>
    (if id.matches sp.name then [id] else []) ++ find_definitions rest origin sp
  | Jumpable.CallExpression _ _ :: rest => find_definitions rest origin sp

/-- `NASLDefinitions::find_points`: resolve and project to start points. -/
def NASLDefinitions.find_points (d : NASLDefinitions) (sp : SearchParameter) :
    List Point :=
  (find_definitions d.definitions d.origin sp).map (fun i => i.start)

/-! ### Abstract concrete-syntax-tree nodes

The tree-sitter grammars are external black boxes; a CST node is modelled
by its kind, the source text of its byte range (sources are ASCII, so byte
slicing and character slicing agree), its start and end positions, its
field-labelled children and its named children. -/

/-- An abstract `tree_sitter::Node`. -/
inductive CNode where
  | mk (kind : String) (text : String) (spos : Point) (epos : Point)
      (fields : List (String × CNode)) (children : List CNode)

/-- `Node::kind`. -/
def CNode.kind : CNode → String
  | .mk k _ _ _ _ _ => k

/-- The source text of the node's byte range. -/
def CNode.text : CNode → String
  | .mk _ t _ _ _ _ => t

/-- `Node::start_position`. -/
def CNode.start_position : CNode → Point
  | .mk _ _ s _ _ _ => s

/-- `Node::end_position`. -/
def CNode.end_position : CNode → Point
  | .mk _ _ _ e _ _ => e

/-- The field-labelled children. -/
def CNode.fields : CNode → List (String × CNode)
  | .mk _ _ _ _ fs _ => fs

/-- The named children, in order. -/
def CNode.children : CNode → List CNode
  | .mk _ _ _ _ _ cs => cs

/-- `Node::child_by_field_name`: the first child labelled with the field. -/
def CNode.child_by_field_name (n : CNode) (f : String) : Option CNode :=
  (n.fields.find? (fun p => p.1 == f)).map (fun p => p.2)

/-- `Node::named_children`. -/
def CNode.named_children (n : CNode) : List CNode := n.children

/-- `Node::named_child(i)`. -/
def CNode.named_child (n : CNode) (i : Nat) : Option CNode :=
  n.children.get? i

/-- Size fact used by the termination arguments below: a child reached
through a field is smaller than its parent. -/
def sizeOf_field_lt {n c : CNode} {f : String}
    (h : n.child_by_field_name f = some c) : sizeOf c < sizeOf n := by
  unfold CNode.child_by_field_name at h
  cases hf : (n.fields.find? (fun p => p.1 == f)) with
  | none => rw [hf] at h; simp at h
  | some p =>
    rw [hf] at h
    simp at h
    have hm : p ∈ n.fields := List.mem_of_find?_eq_some hf
    have h1 : sizeOf p < sizeOf n.fields := List.sizeOf_lt_of_mem hm
    have h2 : sizeOf c < sizeOf p := by
      cases p with
      | mk a b =>
        simp at h
        subst h
        simp
    cases n with
    | mk k t s e fs cs => simp [CNode.fields] at h1 ⊢; omega

/-- Size fact used by the termination arguments below: a member of the
field list is smaller than the node. -/
def sizeOf_field_mem_lt {n c : CNode} {s : String}
    (h : (s, c) ∈ n.fields) : sizeOf c < sizeOf n := by
  have h1 : sizeOf (s, c) < sizeOf n.fields := List.sizeOf_lt_of_mem h
  have h2 : sizeOf c < sizeOf (s, c) := by simp
  cases n with
  | mk k t sp ep fs cs => simp [CNode.fields] at h1 ⊢; omega

/-- Size fact used by the termination arguments below: a named child is
smaller than its parent. -/
def sizeOf_child_lt {n c : CNode} (h : c ∈ n.children) : sizeOf c < sizeOf n := by
  have h1 : sizeOf c < sizeOf n.children := List.sizeOf_lt_of_mem h
  cases n with
  | mk k t s e fs cs => simp [CNode.children] at h1 ⊢; omega

/-! ### OpenVAS built-in resolver (`openvas_funcs.rs`) -/

/-- `string_literal_range` composed with byte slicing: drop the first and
last byte of the literal (its quotes). -/
def string_literal_strip (s : String) : String :=
  (s.drop 1).dropRight 1

/-- `openvas_funcs.rs::naslfuncnames`: from a `declaration` node, reject
when the descent declarator → init_declarator → declarator → declarator
reaches text other than `libfuncs`; otherwise collect every
`{string_literal, identifier}` pair of the initializer list, recording the
literal's text and start position. -/
def naslfuncnames (node : CNode) : List (String × Point) :=
  if node.kind == "declaration" then
    match node.child_by_field_name "declarator" with
    | some d =>
      let reject : Bool :=
        if d.kind == "init_declarator" then
          match d.child_by_field_name "declarator" with
          | some d2 =>
            match d2.child_by_field_name "declarator" with
            | some d3 => !(d3.text == "libfuncs")
            | none => false
          | none => false
        else false
      if reject then []
      else
        match d.child_by_field_name "value" with
        | some v =>
          if v.kind == "initializer_list" then
            v.named_children.filterMap (fun vc =>
              if vc.kind == "initializer_list" then
                match vc.named_child 0 with
                | some sl =>
                  if sl.kind == "string_literal" then
                    match vc.named_child 1 with
                    | some id =>
                      if id.kind == "identifier" then
                        some (sl.text, sl.start_position)
                      else none
                    | none => none
                  else none
                | none => none
              else none)
          else []
        | none => []
    | none => []
  else []

/-- The full declarator descent of the specification: the text reached by
declarator → init_declarator → declarator → declarator, when every step
succeeds. -/
def libfuncs_descent (n : CNode) : Option String :=
  if n.kind == "declaration" then
    match n.child_by_field_name "declarator" with
    | some d =>
      if d.kind == "init_declarator" then
        match d.child_by_field_name "declarator" with
        | some d2 => (d2.child_by_field_name "declarator").map CNode.text
        | none => none
      else none
    | none => none
  else none

/-- `openvas_funcs.rs`: the built-in function table. -/
structure OpenVASInBuildFunctions where
  definitions : List Jumpable
  origin : String

/-- `OpenVASInBuildFunctions::new`: scan the root's named children with
`naslfuncnames` and emit a synthetic `FunDef` per entry, its name the
quote-stripped literal, its end position the default point. -/
def OpenVASInBuildFunctions.new (origin : String) (root : CNode) :
    OpenVASInBuildFunctions :=
  { definitions := root.named_children.flatMap (fun c =>
      (naslfuncnames c).map (fun bs =>
        Jumpable.FunDef
          { start := bs.2, endP := Point.default,
            identifier := some (string_literal_strip bs.1) } []))
    origin := origin }

/-- `OpenVASInBuildFunctions::find_origin_location`: resolve and pair each
start point with the table's origin path. -/
def OpenVASInBuildFunctions.find_origin_location (b : OpenVASInBuildFunctions)
    (sp : SearchParameter) : List (String × Point) :=
  (find_definitions b.definitions b.origin sp).map (fun x => (b.origin, x.start))

/-! ### NASL extractor (`node_ext.rs`) -/

/-- `CodeContainer`: origin path plus the optional parent node (the code
itself is carried by the nodes in this model). -/
structure CodeContainer where
  origin : String
  parent : Option CNode

/-- `IdentifierExt::identifier`: an `identifier` node becomes an
`Identifier` spanning the node, named by its text. -/
def CNode.identifier (n : CNode) : Option Identifier :=
  if n.kind == "identifier" then
    some { start := n.start_position, endP := n.end_position,
           identifier := some n.text }
  else none

/-- `FuncDeclaratorExt::parameter_list`: the identifiers among the named
children of a `parameter_list` node. -/
def CNode.parameter_list (n : CNode) : List Identifier :=
  if n.kind == "parameter_list" then
    n.named_children.filterMap CNode.identifier
  else []

/-- `FuncDeclaratorExt::func_declarator`: a `function_declarator` whose
`declarator` field is an identifier yields, when a parent node is present,
a `FunDef` spanning the parent with the declarator's name and the
`parameters` field's parameter list. -/
def CNode.func_declarator (n : CNode) (container : CodeContainer) :
    Option Jumpable :=
  if n.kind == "function_declarator" then
    match n.child_by_field_name "declarator" with
    | some c =>
      match c.identifier with
      | some x =>
        match container.parent with
        | some p =>
          some (Jumpable.FunDef
            { start := p.start_position, endP := p.end_position,
              identifier := x.identifier }
            (((n.child_by_field_name "parameters").map
                CNode.parameter_list).getD []))
        | none => none
      | none => none
    | none => none
  else none

/-- `AssignmentExpressionExt::assignment_expression`: emit `Assign` for an
identifier on the `left` field. -/
def CNode.assignment_expression (n : CNode) : List Jumpable :=
  if n.kind == "assignment_expression" then
    match n.child_by_field_name "left" with
    | some c =>
      match c.identifier with
      | some id => [Jumpable.Assign id]
      | none => []
    | none => []
  else []

/-- `StringLiteralExt::string_literal`: keep a `string_literal` whose first
named child is a `string_fragment`, as a `StringLiteral` argument named by
the fragment's text. -/
def CNode.string_literal (n : CNode) : Option Argument :=
  if n.kind == "string_literal" then
    match n.named_children.head? with
    | some sln =>
      if sln.kind == "string_fragment" then
        some (Argument.StringLiteral
          { start := sln.start_position, endP := sln.end_position,
            identifier := some sln.text })
      else none
    | none => none
  else none

/-- `CallExpressionExt::argument_list`: the string literals among the named
children of an `argument_list` node. -/
def CNode.argument_list (n : CNode) : List Argument :=
  if n.kind == "argument_list" then
    n.named_children.filterMap CNode.string_literal
  else []

/-- `CallExpressionExt::call_expression`: a `call_expression` whose
`function` field is an identifier yields one `CallExpression` with the
`arguments` field's argument list (empty when absent). -/
def CNode.call_expression (n : CNode) : List Jumpable :=
  if n.kind == "call_expression" then
    match n.child_by_field_name "function" with
    | some nf =>
      match nf.identifier with
      | some id =>
        match n.child_by_field_name "arguments" with
        | some an => [Jumpable.CallExpression id an.argument_list]
        | none => [Jumpable.CallExpression id []]
      | none => []
    | none => []
  else []

/-- `ExpressionStatementExt::expression_statement`: for each named child,
its call expressions then its assignment expressions. -/
def CNode.expression_statement (n : CNode) : List Jumpable :=
  if n.kind == "expression_statement" then
    n.named_children.flatMap (fun c =>
      c.call_expression ++ c.assignment_expression)
  else []

mutual

/-- `BinaryExpressionExt::binary_expression`: recurse into parenthesized
sub-expressions. -/
def CNode.binary_expression (n : CNode) : List Jumpable :=
  if n.kind == "binary_expression" then
    n.children.attach.flatMap (fun c =>
      c.1.parenthesized_expression)
  else []
termination_by sizeOf n
decreasing_by all_goals exact sizeOf_child_lt c.2

/-- `ParenthesizedExpressionExt::parenthesized_expression`: collect binary,
assignment and nested parenthesized expressions of each named child. -/
def CNode.parenthesized_expression (n : CNode) : List Jumpable :=
  if n.kind == "parenthesized_expression" then
    n.children.attach.flatMap (fun c =>
      c.1.binary_expression ++ c.1.assignment_expression ++
        c.1.parenthesized_expression)
  else []
termination_by sizeOf n
decreasing_by all_goals exact sizeOf_child_lt c.2

end

/-- One iteration of the loop of `interpret.rs::NASLDefinitions::new`:
definitions are pushed; an `include` call expression extends the include
names with its stringifiable arguments. -/
def of_jumps_step (acc : List Jumpable × List String) (j : Jumpable) :
    List Jumpable × List String :=
  if j.is_definition then (acc.1 ++ [j], acc.2)
  else
    match j with
    | Jumpable.CallExpression id params =>
      match id.identifier with
      | some name =>
        if name == "include" then
          (acc.1, acc.2 ++ params.filterMap Argument.to_string)
        else acc
      | none => acc
    | _ => acc

/-- `interpret.rs::NASLDefinitions::new`, post-extraction part: split the
jump list into definitions and, from `include` call expressions, the
include names. -/
def NASLDefinitions.of_jumps (origin : String) (jumps : List Jumpable) :
    NASLDefinitions :=
  let acc := jumps.foldl of_jumps_step ([], [])
  NASLDefinitions.mk acc.1 origin acc.2

mutual

/-- `JumpableExt::jumpable`: per named child, function definitions,
expression statements, compound statements and if statements, in order. -/
def CNode.jumpable (n : CNode) (container : CodeContainer) : List Jumpable :=
  n.children.attach.flatMap (fun c =>
    c.1.func_def container ++ c.1.expression_statement ++
      c.1.compound_statement container ++ c.1.if_statement container)
termination_by (sizeOf n, 0)
decreasing_by
  all_goals exact Prod.Lex.left _ _ (sizeOf_child_lt c.2)

/-- `FuncDefExt::func_def`: per named child of a `function_definition`,
either the function declarator (with the definition node as parent) or the
child's compound statement. -/
def CNode.func_def (n : CNode) (container : CodeContainer) : List Jumpable :=
  if n.kind == "function_definition" then
    n.children.attach.flatMap (fun c =>
      match c.1.func_declarator ⟨container.origin, some n⟩ with
      | some fd => [fd]
      | none => c.1.compound_statement container)
  else []
termination_by (sizeOf n, 1)
decreasing_by
  all_goals exact Prod.Lex.left _ _ (sizeOf_child_lt c.2)

/-- `CompoundExt::compound_statement`: one anonymous `Block` spanning the
node, holding the definitions extracted from the node itself with no
parent. -/
def CNode.compound_statement (n : CNode) (container : CodeContainer) :
    List Jumpable :=
  if n.kind == "compound_statement" then
    [Jumpable.Block
      { start := n.start_position, endP := n.end_position, identifier := none }
      (NASLDefinitions.of_jumps container.origin
        (n.jumpable ⟨container.origin, none⟩))]
  else []
termination_by (sizeOf n, 1)
decreasing_by
  exact Prod.Lex.right _ Nat.zero_lt_one

/-- `IfStatementExt::if_statement`: one `IfDef` spanning the statement with
the assignment identifiers found in the condition, then the consequence's
blocks and expression statements, then the alternative's if statement,
blocks and expression statements. -/
def CNode.if_statement (n : CNode) (container : CodeContainer) :
    List Jumpable :=
  if n.kind == "if_statement" then
    (match n.child_by_field_name "condition" with
     | some c =>
       [Jumpable.IfDef
         { start := n.start_position, endP := n.end_position,
           identifier := none }
         (c.parenthesized_expression.filterMap (fun j =>
           match j with
           | Jumpable.Assign id => some id
           | _ => none))]
     | none => []) ++
    (match hc : n.child_by_field_name "consequence" with
     | some c => c.compound_statement container ++ c.expression_statement
     | none => []) ++
    (match ha : n.child_by_field_name "alternative" with
     | some c =>
       c.if_statement container ++ c.compound_statement container ++
         c.expression_statement
     | none => [])
  else []
termination_by (sizeOf n, 1)
decreasing_by
  · exact Prod.Lex.left _ _ (sizeOf_field_lt hc)
  · exact Prod.Lex.left _ _ (sizeOf_field_lt ha)
  · exact Prod.Lex.left _ _ (sizeOf_field_lt ha)

end

/-- `interpret.rs::NASLDefinitions::new`: extract the node's jumpables with
an empty container and split them. -/
def NASLDefinitions.new (origin : String) (node : CNode) : NASLDefinitions :=
  NASLDefinitions.of_jumps origin (node.jumpable ⟨origin, none⟩)

mutual

/-- `interpret.rs::find_identifier`: when the position lies in the node's
range, return a leaf identifier's text, else the first hit among the named
children. -/
def find_identifier (pos : ℚ) : CNode → Option String
  | .mk k t s e _ cs =>
    let nspos := to_pos s.row s.column
    let nepos := to_pos e.row e.column
    if pos ≥ nspos ∧ pos ≤ nepos then
      if cs.isEmpty && (k == "identifier") then some t
      else (find_identifier_list pos cs).head?
    else none

/-- The hits of `find_identifier` over a child list, in order (the source's
`filter_map(..).next()` takes the head). -/
def find_identifier_list (pos : ℚ) : List CNode → List String
  | [] => []
  | c :: rest =>
    (match find_identifier pos c with
      | some x => [x]
      | none => []) ++ find_identifier_list pos rest

end

/-- `interpret.rs::NASLDefinitions::search_parameter`: parse, locate the
identifier under the cursor, and build the query. -/
def search_parameter (parseNasl : String → Option CNode)
    (origin code : String) (line column : Nat) : Option SearchParameter :=
  let pos := to_pos line column
  match parseNasl code with
  | some root =>
    (find_identifier pos root).map (fun name =>
      { origin := origin, name := name, pos := pos })
  | none => none

/-! ### Include loader (`interpret.rs::new_with_includes`)

File reads, path existence and the black-box tree-sitter NASL parse are
the loader's effectful inputs; they are supplied as an explicit
environment.  The unbounded include recursion of the source (no cycle
detection) is modelled with explicit fuel; exhausted fuel behaves like a
failing load, which the source swallows for transitive includes. -/

/-- The loader's effectful environment: file reads, path existence and the
black-box NASL parse. -/
structure FS where
  read : String → Option String
  pathExists : String → Bool
  parseNasl : String → Option CNode

/-- `p.strip_prefix("file://").unwrap_or(&p)`. -/
def strip_file_scheme (p : String) : String :=
  if p.startsWith "file://" then p.drop 7 else p

/-- `NASLDefinitions::new_parse_tree`: parse the code and extract. -/
def new_parse_tree (φ : FS) (origin code : String) : Option NASLDefinitions :=
  (φ.parseNasl code).map (fun root => NASLDefinitions.new origin root)

/-- `NASLDefinitions::new_with_includes`: read (unless code is supplied),
parse, then for every include and every root form `root ++ "/" ++ name`,
strip a `file://` scheme, keep existing paths, recursively load each
(failures skipped), and prepend the root file's definitions. -/
def new_with_includes (fuel : Nat) (φ : FS) (path : String)
    (paths : List String) (code : Option String) :
    Option (List NASLDefinitions) :=
  match fuel with
  | 0 => none
  | fuel + 1 =>
    match (match code with | some c => some c | none => φ.read path) with
    | none => none
    | some code =>
      match new_parse_tree φ path code with
      | none => none
      | some init =>
        let incs :=
          ((((init.includes.flatMap (fun i =>
                paths.map (fun p => p ++ "/" ++ i))).map
              strip_file_scheme).filter
            φ.pathExists).flatMap (fun p =>
              match new_with_includes fuel φ p paths none with
              | some r => r
              | none => []))
        some (init :: incs)

/-- Modelled from the specification's words for the include loader (spec
§4.4, the refinement target of the loader claim): for every include name
in source order, for every root, the candidate `r + "/" + i` is formed,
the `file://` scheme stripped, non-existing candidates skipped, survivors
loaded recursively, and the result is the root file followed by the
depth-first recursive results. -/
def load_spec (fuel : Nat) (φ : FS) (path : String) (roots : List String)
    (code : Option String) : Option (List NASLDefinitions) :=
  match fuel with
  | 0 => none
  | fuel + 1 =>
    match (match code with | some c => some c | none => φ.read path) with
    | none => none
    | some c =>
      match new_parse_tree φ path c with
      | none => none
      | some init =>
        some (init :: init.includes.flatMap (fun i =>
          (((roots.map (fun r => r ++ "/" ++ i)).map
              strip_file_scheme).filter φ.pathExists).flatMap (fun p =>
            (load_spec fuel φ p roots none).getD [])))

/-! ### Request handler (`src/handler.rs`) -/

/-- An LSP `Location`: a `file://` URI and a zero-width range, modelled as
the pair of its (equal) end points. -/
structure Location where
  uri : String
  range : Point × Point
deriving DecidableEq, Repr

/-- `handler.rs::location`: `file://` plus the origin path, with the
zero-width range of `AsRangeExt::as_range` (URL parsing modelled as always
succeeding). -/
def location (path : String) (point : Point) : Option Location :=
  some { uri := "file://" ++ path, range := (point, point) }

/-- The accumulated NASL locations of the handler: per definitions table,
resolve and project every start point to a location at its origin. -/
def nasl_locations (interprets : List NASLDefinitions)
    (sp : SearchParameter) : List Location :=
  interprets.flatMap (fun i =>
    (i.find_points sp).filterMap (fun pt => location i.origin pt))

/-- The built-in locations of the handler: resolve in the built-in table
and project every (path, point) pair to a location. -/
def builtin_locations (b : OpenVASInBuildFunctions) (sp : SearchParameter) :
    List Location :=
  (b.find_origin_location sp).filterMap (fun pp => location pp.1 pp.2)

/-- `cache.rs::Cache`, the parts the go-to-definition handler reads: the
include-search roots and the optional built-in table. -/
structure Cache where
  paths : List String
  internal : Option OpenVASInBuildFunctions

/-- `handler.rs::ToResponseExt::handle`: read the file (failure aborts with
no result), locate the identifier (failure aborts with no result), load
the definitions (failure degrades to an empty list), accumulate the NASL
locations, and only when that list is empty append the built-in results. -/
def handle (φ : FS) (cache : Cache) (fuel : Nat) (path : String)
    (line character : Nat) : Option (List Location) :=
  match φ.read path with
  | none => none
  | some code =>
    match search_parameter φ.parseNasl path code line character with
    | none => none
    | some sp =>
      let interprets :=
        (new_with_includes fuel φ path cache.paths (some code)).getD []
      let found := nasl_locations interprets sp
      some (if found.isEmpty then
          match cache.internal with
          | some b => found ++ builtin_locations b sp
          | none => found
        else found)

/-- The JSON value of a response's `result` field: `serde_json` turns the
handler's `None` into `null` and `Some(Array(locs))` into an array. -/
inductive JsonResult where
  | null
  | arr (locations : List Location)
deriving DecidableEq, Repr

/-- An LSP response: serialized result and error channel. -/
structure LspResponse where
  result : Option JsonResult
  error : Option String
deriving DecidableEq, Repr

/-- `handler.rs::RequestResponseSender::send_response`: serialize the
handler's output into the result field (always present, `null` for a
missing result) with an empty error channel. -/
def send_response (handleResult : Option (List Location)) : LspResponse :=
  { result := some (match handleResult with
      | none => JsonResult.null
      | some locs => JsonResult.arr locs)
    error := none }

/-- The full response of one go-to-definition request. -/
def respond (φ : FS) (cache : Cache) (fuel : Nat) (path : String)
    (line character : Nat) : LspResponse :=
  send_response (handle φ cache fuel path line character)

/-! ### Identifier collection and range well-formedness -/

mutual

/-- Every identifier a jump entry carries, blocks included. -/
def Jumpable.identifiers : Jumpable → List Identifier
  | .FunDef id params => id :: params
  | .IfDef id params => id :: params
  | .Assign id => [id]
  | .Block id (NASLDefinitions.mk ds _ _) => id :: jumpList_identifiers ds
  | .CallExpression id args =>
    id :: args.map (fun a => match a with | .StringLiteral sid => sid)

/-- Every identifier carried by a list of jump entries. -/
def jumpList_identifiers : List Jumpable → List Identifier
  | [] => []
  | j :: rest => j.identifiers ++ jumpList_identifiers rest

end

/-- The data-model invariant on one identifier: `start ≤ end` in the
lexicographic (row, column) order. -/
def Identifier.wfLe (i : Identifier) : Bool :=
  decide (Point.lexLe i.start i.endP)

mutual

/-- A CST is well formed when every node's start position is at most its
end position, fields and named children included. -/
def CNode.wfB : CNode → Bool
  | .mk _ _ s e fs cs =>
    decide (Point.lexLe s e) && wfFields fs && wfChildren cs

/-- Well-formedness of a field list. -/
def wfFields : List (String × CNode) → Bool
  | [] => true
  | (_, c) :: rest => c.wfB && wfFields rest

/-- Well-formedness of a child list. -/
def wfChildren : List CNode → Bool
  | [] => true
  | c :: rest => c.wfB && wfChildren rest

end

/-- The container's optional parent node has an ordered range. -/
def containerOk (container : CodeContainer) : Bool :=
  match container.parent with
  | some p => decide (Point.lexLe p.start_position p.end_position)
  | none => true

/-- Modelled from the specification's words for include extraction (spec
property P3, the refinement target of the include-extraction claim): the
inner names of the string-literal arguments of every `Call` whose callee
name is exactly `include`, in source order. -/
def includes_spec (jumps : List Jumpable) : List String :=
  jumps.flatMap (fun j =>
    match j with
    | Jumpable.CallExpression id args =>
      if id.identifier = some "include" then
        args.flatMap (fun a =>
          match a with
          | Argument.StringLiteral sid => sid.identifier.toList)
      else []
    | _ => [])

/-! ### Concrete example data

A small C declaration tree mirroring the shape tree-sitter produces for
`static init_func libfuncs[] = { {"script_name", script_name_internal} };`
(as in the resolver's own test), one variant binding the table to the
scalar identifier `othertable`, and one binding it to an array declarator
named `othertable`; plus a one-assignment NASL tree for `b = 1;`. -/

/-- The `libfuncs` identifier node. -/
def cLibfuncsId : CNode :=
  .mk "identifier" "libfuncs" ⟨3, 25⟩ ⟨3, 33⟩ [] []

/-- The `libfuncs[]` array declarator. -/
def cArrayDecl : CNode :=
  .mk "array_declarator" "libfuncs[]" ⟨3, 25⟩ ⟨3, 35⟩
    [("declarator", cLibfuncsId)] []

/-- The `"script_name"` string literal. -/
def cSlit : CNode :=
  .mk "string_literal" "\"script_name\"" ⟨3, 41⟩ ⟨3, 54⟩ [] []

/-- The `script_name_internal` identifier. -/
def cCid : CNode :=
  .mk "identifier" "script_name_internal" ⟨3, 56⟩ ⟨3, 76⟩ [] []

/-- The inner `{"script_name", script_name_internal}` initializer pair. -/
def cEntry : CNode :=
  .mk "initializer_list" "\"script_name\", script_name_internal"
    ⟨3, 40⟩ ⟨3, 77⟩ [] [cSlit, cCid]

/-- The outer initializer list. -/
def cIlist : CNode :=
  .mk "initializer_list" "\"script_name\", script_name_internal (list)"
    ⟨3, 38⟩ ⟨3, 79⟩ [] [cEntry]

/-- The `libfuncs[] = { ... }` init declarator. -/
def cInitDecl : CNode :=
  .mk "init_declarator" "libfuncs[] = ..." ⟨3, 25⟩ ⟨3, 79⟩
    [("declarator", cArrayDecl), ("value", cIlist)] []

/-- The whole `libfuncs` declaration. -/
def cDecl : CNode :=
  .mk "declaration" "static init_func libfuncs[] = ...;"
    ⟨3, 8⟩ ⟨3, 80⟩ [("declarator", cInitDecl)] []

/-- A C translation unit holding the `libfuncs` declaration. -/
def cRoot : CNode :=
  .mk "translation_unit" "" ⟨0, 0⟩ ⟨4, 0⟩ [] [cDecl]

/-- A scalar `othertable` identifier (no inner declarator field). -/
def cOtherId : CNode :=
  .mk "identifier" "othertable" ⟨3, 25⟩ ⟨3, 35⟩ [] []

/-- `othertable = { ... }` with a scalar declarator. -/
def cInitDeclOther : CNode :=
  .mk "init_declarator" "othertable = ..." ⟨3, 25⟩ ⟨3, 79⟩
    [("declarator", cOtherId), ("value", cIlist)] []

/-- A declaration binding the initializer table to scalar `othertable`. -/
def cDeclOther : CNode :=
  .mk "declaration" "struct t othertable = ...;" ⟨3, 8⟩ ⟨3, 80⟩
    [("declarator", cInitDeclOther)] []

/-- A C translation unit holding the scalar `othertable` declaration. -/
def cRootOther : CNode :=
  .mk "translation_unit" "" ⟨0, 0⟩ ⟨4, 0⟩ [] [cDeclOther]

/-- An `othertable[]` array declarator. -/
def cOtherArrDecl : CNode :=
  .mk "array_declarator" "othertable[]" ⟨3, 25⟩ ⟨3, 37⟩
    [("declarator", cOtherId)] []

/-- `othertable[] = { ... }` as init declarator. -/
def cInitDeclOtherArr : CNode :=
  .mk "init_declarator" "othertable[] = ..." ⟨3, 25⟩ ⟨3, 79⟩
    [("declarator", cOtherArrDecl), ("value", cIlist)] []

/-- A declaration binding the initializer table to array `othertable[]`. -/
def cDeclOtherArr : CNode :=
  .mk "declaration" "static init_func othertable[] = ...;"
    ⟨3, 8⟩ ⟨3, 80⟩ [("declarator", cInitDeclOtherArr)] []

/-- The `b` identifier of the NASL example `b = 1;`. -/
def nAssignLeft : CNode :=
  .mk "identifier" "b" ⟨0, 0⟩ ⟨0, 1⟩ [] []

/-- The assignment expression of `b = 1;`. -/
def nAssign : CNode :=
  .mk "assignment_expression" "b = 1" ⟨0, 0⟩ ⟨0, 5⟩
    [("left", nAssignLeft)] [nAssignLeft]

/-- The expression statement of `b = 1;`. -/
def nExprStmt : CNode :=
  .mk "expression_statement" "b = 1;" ⟨0, 0⟩ ⟨0, 6⟩ [] [nAssign]

/-- A NASL source file consisting of `b = 1;`. -/
def nRoot : CNode :=
  .mk "source_file" "b = 1;" ⟨0, 0⟩ ⟨1, 0⟩ [] [nExprStmt]

/-- All identifiers carried by the listed jump entries have ordered
ranges. -/
def IdsOk (l : List Jumpable) : Prop :=
  ∀ j ∈ l, ∀ i ∈ j.identifiers, i.wfLe = true

/-- A concrete loader environment for the one-assignment NASL file: every
read returns `b = 1;`, nothing exists on disk, and the parser returns the
`b = 1;` tree. -/
def fsW : FS :=
  { read := fun _ => some "b = 1;", pathExists := fun _ => false,
    parseNasl := fun _ => some nRoot }

/-- A concrete cache holding the `libfuncs` built-in table and no search
roots. -/
def cacheW : Cache :=
  { paths := [], internal := some (OpenVASInBuildFunctions.new "nasl_init.c" cRoot) }

/-! ### A binary32 rounding model

`to_pos` above is the specification's real-number reading.  The
implementation computes in `f32`; the functions below model IEEE binary32
round-to-nearest-even at 24 bits of precision (with unbounded exponent
range: subnormals and overflow lie outside the values the encoding ever
sees), and `to_pos_f32` models the implemented expression
`r as f32 + c as f32 / 100.0` rounding step by step. -/

/-- Rational addition written with `mkRat` (extensionally `Rat.add`, which
is sealed against reduction). -/
def qAdd (a b : ℚ) : ℚ :=
  mkRat (a.num * (b.den : ℤ) + b.num * (a.den : ℤ)) (a.den * b.den)

/-- Rational subtraction written with `mkRat`. -/
def qSub (a b : ℚ) : ℚ :=
  mkRat (a.num * (b.den : ℤ) - b.num * (a.den : ℤ)) (a.den * b.den)

/-- Rational multiplication written with `mkRat`. -/
def qMul (a b : ℚ) : ℚ :=
  mkRat (a.num * b.num) (a.den * b.den)

/-- Rational division written with `mkRat`. -/
def qDiv (a b : ℚ) : ℚ :=
  if 0 ≤ b.num then mkRat (a.num * (b.den : ℤ)) (a.den * b.num.toNat)
  else mkRat (-(a.num * (b.den : ℤ))) (a.den * (-b.num).toNat)

/-- Powers of two with integer exponent, as rationals. -/
def pow2 (z : ℤ) : ℚ :=
  if 0 ≤ z then mkRat ((2 ^ z.toNat : ℕ) : ℤ) 1 else mkRat 1 (2 ^ (-z).toNat)

/-- Floor of a rational as an integer. -/
def ratFloor (x : ℚ) : ℤ := x.num.fdiv (x.den : ℤ)

/-- Round a rational to the nearest integer, ties to even. -/
def roundNearestEven (y : ℚ) : ℤ :=
  let m := ratFloor y
  let r := qSub y (mkRat m 1)
  if r < mkRat 1 2 then m
  else if mkRat 1 2 < r then m + 1
  else if m % 2 = 0 then m else m + 1

/-- Binary32 rounding of a positive rational: locate the leading binary
exponent, scale the 24-bit significand, and round to nearest, ties to
even. -/
def fl32Pos (x : ℚ) : ℚ :=
  match (List.range 512).find? (fun i => x < pow2 ((i : ℤ) - 256)) with
  | some i =>
    qMul (mkRat (roundNearestEven (qDiv x (pow2 ((i : ℤ) - 280)))) 1)
      (pow2 ((i : ℤ) - 280))
  | none => x

/-- Binary32 rounding of a rational. -/
def fl32 (x : ℚ) : ℚ :=
  if x = 0 then 0
  else if 0 < x then fl32Pos x
  else -fl32Pos (-x)

/-- The implementation's `to_pos` with its f32 roundings:
`fl(fl(r) + fl(fl(c) / 100))` (100.0 is exact in binary32). -/
def to_pos_f32 (r c : Nat) : ℚ :=
  fl32 (qAdd (fl32 (mkRat r 1)) (fl32 (qDiv (fl32 (mkRat c 1)) (mkRat 100 1))))

/-- The emission part of `naslfuncnames`, with the `libfuncs` guard
removed: the initializer entries of the declarator's `value` field.  It
never consults the declarator's bound identifier. -/
def emitted_entries (node : CNode) : List (String × Point) :=
  if node.kind == "declaration" then
    match node.child_by_field_name "declarator" with
    | some d =>
      match d.child_by_field_name "value" with
      | some v =>
        if v.kind == "initializer_list" then
          v.named_children.filterMap (fun vc =>
            if vc.kind == "initializer_list" then
              match vc.named_child 0 with
              | some sl =>
                if sl.kind == "string_literal" then
                  match vc.named_child 1 with
                  | some id =>
                    if id.kind == "identifier" then
                      some (sl.text, sl.start_position)
                    else none
                  | none => none
                else none
              | none => none
            else none)
        else []
      | none => []
    | none => []
  else []

/-! ## Theorems -/

/-- Strict monotonicity of the scalar encoding: a lexicographic increase
with the first column below 100 strictly increases the scalar. -/
theorem to_pos_lt_of_lexLt {r1 c1 r2 c2 : Nat} (h1 : c1 < 100)
    (hlt : Point.lexLt ⟨r1, c1⟩ ⟨r2, c2⟩) : to_pos r1 c1 < to_pos r2 c2 := by
  unfold Point.lexLt at hlt
  unfold to_pos
  rcases hlt with h | ⟨he, hc⟩
  · have hr : (r1 : ℚ) + 1 ≤ (r2 : ℚ) := by exact_mod_cast h
    have hc1 : (c1 : ℚ) / 100 < 1 := by
      rw [div_lt_one (by norm_num)]
      exact_mod_cast h1
    have hc2 : (0 : ℚ) ≤ (c2 : ℚ) / 100 := by positivity
    linarith
  · simp only at he hc
    subst he
    have hq : (c1 : ℚ) < (c2 : ℚ) := by exact_mod_cast hc
    have hdiv : (c1 : ℚ) / 100 < (c2 : ℚ) / 100 := by
      rw [div_eq_mul_inv, div_eq_mul_inv]
      exact mul_lt_mul_of_pos_right hq (by norm_num)
    linarith

set_option maxRecDepth 1000000 in
/-- Counterexample for C8: in binary32, as the implementation computes it,
the encoding is not strictly monotone — (131072, 1) and (131072, 2) are
lexicographically ordered with both columns below 100, yet they round to
the same scalar 8388609/64. -/
theorem C8_f32_counterexample :
    Point.lexLt ⟨131072, 1⟩ ⟨131072, 2⟩ ∧ (1 : Nat) < 100 ∧
    (2 : Nat) < 100 ∧ to_pos_f32 131072 1 = to_pos_f32 131072 2 ∧
    ¬ to_pos_f32 131072 1 < to_pos_f32 131072 2 := by
  refine ⟨by decide, by norm_num, by norm_num, ?_, ?_⟩
  · decide
  · decide

set_option maxRecDepth 1000000 in
/-- Claim C8 as amended: the specification's real-number encoding
`pos(row, column) = row + column / 100` is, for columns below 100,
strictly monotone in and order-isomorphic to the lexicographic
(row, column) order, and the containment test of `Identifier::in_pos` is
exactly `s ≤ p ≤ e` on the scalars; the f32 encoding the implementation
computes is not strictly monotone, collapsing for example (131072, 1) and
(131072, 2). -/
theorem C8_position_encoding_amended :
    (∀ r1 c1 r2 c2 : Nat, c1 < 100 → c2 < 100 →
      (Point.lexLt ⟨r1, c1⟩ ⟨r2, c2⟩ ↔ to_pos r1 c1 < to_pos r2 c2)) ∧
    (∀ (i : Identifier) (p : ℚ),
      i.in_pos p = true ↔ (i.as_pos.1 ≤ p ∧ p ≤ i.as_pos.2)) ∧
    to_pos_f32 131072 1 = to_pos_f32 131072 2 := by
  refine ⟨?_, ?_, by decide⟩
  · intro r1 c1 r2 c2 h1 h2
    constructor
    · exact to_pos_lt_of_lexLt h1
    · intro hlt
      rcases Nat.lt_trichotomy r1 r2 with h | h | h
      · exact Or.inl h
      · subst h
        rcases Nat.lt_trichotomy c1 c2 with h | h | h
        · exact Or.inr ⟨rfl, h⟩
        · subst h
          exact absurd hlt (lt_irrefl _)
        · have : Point.lexLt ⟨r1, c2⟩ ⟨r1, c1⟩ := Or.inr ⟨rfl, h⟩
          have := @to_pos_lt_of_lexLt r1 c2 r1 c1 h2 this
          linarith
      · have : Point.lexLt ⟨r2, c2⟩ ⟨r1, c1⟩ := Or.inl h
        have := @to_pos_lt_of_lexLt r2 c2 r1 c1 h2 this
        linarith
  · intro i p
    simp [Identifier.in_pos, and_comm, ge_iff_le]

/-- Witness for the amended C8 at a concrete pair of positions. -/
theorem C8_position_encoding_amended_witness :
    to_pos 1 5 < to_pos 2 3 ∧ 1 < 100 :=
  ⟨(C8_position_encoding_amended.1 1 5 2 3 (by norm_num) (by norm_num)).mp
    (by decide), by norm_num⟩

/-- Per-entry decomposition of resolution over a cons cell. -/
theorem find_definitions_cons (j : Jumpable) (rest : List Jumpable)
    (origin : String) (sp : SearchParameter) :
    find_definitions (j :: rest) origin sp =
      find_definitions [j] origin sp ++ find_definitions rest origin sp := by
  cases j with
  | Block id defs => cases defs with
    | mk ds o incs => simp [find_definitions]
  | IfDef id params => simp [find_definitions]
  | FunDef id params => simp [find_definitions]
  | Assign id => simp [find_definitions]
  | CallExpression id args => simp [find_definitions]

/-- A matching entry identifier is always among `verify_args`. -/
theorem mem_verify_args_self {id : Identifier} {origin : String}
    {args : List Identifier} {sp : SearchParameter}
    (h : id.matches sp.name = true) : id ∈ verify_args id origin args sp := by
  simp [verify_args, h]

/-- Resolution of a list contains the resolution of any member entry. -/
theorem mem_find_definitions_of_mem {defs : List Jumpable} {origin : String}
    {sp : SearchParameter} {j : Jumpable} (hj : j ∈ defs) {id : Identifier}
    (hid : id ∈ find_definitions [j] origin sp) :
    id ∈ find_definitions defs origin sp := by
  induction defs with
  | nil => cases hj
  | cons a rest ih =>
    rw [find_definitions_cons]
    rcases List.mem_cons.mp hj with h | h
    · subst h
      exact List.mem_append_left _ hid
    · exact List.mem_append_right _ (ih h)

/-- A name-matching `FunDef` identifier is globally visible. -/
theorem fundef_global_mem (defs : List Jumpable) (origin : String)
    (sp : SearchParameter) (id : Identifier) (params : List Identifier)
    (hmem : Jumpable.FunDef id params ∈ defs)
    (hmatch : id.matches sp.name = true) :
    id ∈ find_definitions defs origin sp := by
  refine mem_find_definitions_of_mem hmem ?_
  simp [find_definitions]
  exact mem_verify_args_self hmatch

/-- A name-matching `IfDef` identifier is globally visible. -/
theorem ifdef_global_mem (defs : List Jumpable) (origin : String)
    (sp : SearchParameter) (id : Identifier) (params : List Identifier)
    (hmem : Jumpable.IfDef id params ∈ defs)
    (hmatch : id.matches sp.name = true) :
    id ∈ find_definitions defs origin sp := by
  refine mem_find_definitions_of_mem hmem ?_
  simp [find_definitions]
  exact mem_verify_args_self hmatch

/-- Out of scope, a single `FunDef` contributes at most its own
identifier, never a parameter. -/
theorem fundef_locality (origin : String) (sp : SearchParameter)
    (id : Identifier) (params : List Identifier)
    (hout : (origin == sp.origin && id.in_pos sp.pos) = false) :
    find_definitions [Jumpable.FunDef id params] origin sp =
      if id.matches sp.name then [id] else [] := by
  simp [find_definitions, verify_args, hout]

/-- Out of scope, a single `IfDef` contributes at most its own identifier,
never a binding. -/
theorem ifdef_locality (origin : String) (sp : SearchParameter)
    (id : Identifier) (params : List Identifier)
    (hout : (origin == sp.origin && id.in_pos sp.pos) = false) :
    find_definitions [Jumpable.IfDef id params] origin sp =
      if id.matches sp.name then [id] else [] := by
  simp [find_definitions, verify_args, hout]

/-- Claim C1: a `FunDef` or `IfDef` entry yields its identifier on a name
match regardless of query origin and position, while its parameters or
bindings are yielded only when the origin matches and the identifier's
range contains the query position — out of scope the entry contributes
nothing beyond its own identifier. -/
theorem C1_scope_resolution :
    (∀ (defs : List Jumpable) (origin : String) (sp : SearchParameter)
        (id : Identifier) (params : List Identifier),
      Jumpable.FunDef id params ∈ defs → id.matches sp.name = true →
        id ∈ find_definitions defs origin sp) ∧
    (∀ (defs : List Jumpable) (origin : String) (sp : SearchParameter)
        (id : Identifier) (params : List Identifier),
      Jumpable.IfDef id params ∈ defs → id.matches sp.name = true →
        id ∈ find_definitions defs origin sp) ∧
    (∀ (origin : String) (sp : SearchParameter) (id : Identifier)
        (params : List Identifier),
      (origin == sp.origin && id.in_pos sp.pos) = false →
        find_definitions [Jumpable.FunDef id params] origin sp =
          if id.matches sp.name then [id] else []) ∧
    (∀ (origin : String) (sp : SearchParameter) (id : Identifier)
        (params : List Identifier),
      (origin == sp.origin && id.in_pos sp.pos) = false →
        find_definitions [Jumpable.IfDef id params] origin sp =
          if id.matches sp.name then [id] else []) :=
  ⟨fundef_global_mem, ifdef_global_mem, fundef_locality, ifdef_locality⟩

/-- Witness for C1: a concrete function definition is resolved from an
unrelated origin and position, and out of scope its parameter is not. -/
theorem C1_scope_resolution_witness :
    (⟨⟨0, 0⟩, ⟨0, 10⟩, some "f"⟩ : Identifier) ∈
      find_definitions
        [Jumpable.FunDef ⟨⟨0, 0⟩, ⟨0, 10⟩, some "f"⟩
          [⟨⟨0, 5⟩, ⟨0, 6⟩, some "a"⟩]] "a.nasl"
        ⟨"b.nasl", "f", 5⟩ ∧
    find_definitions
        [Jumpable.FunDef ⟨⟨0, 0⟩, ⟨0, 10⟩, some "a"⟩
          [⟨⟨0, 5⟩, ⟨0, 6⟩, some "a"⟩]] "a.nasl"
        ⟨"b.nasl", "a", 5⟩ = [⟨⟨0, 0⟩, ⟨0, 10⟩, some "a"⟩] :=
  ⟨C1_scope_resolution.1 _ _ _ _ _ (List.mem_singleton.mpr rfl) (by decide),
    by
      rw [C1_scope_resolution.2.2.1 _ _ _ _ (by decide)]
      decide⟩

/-- Claim C2: an `Assign` entry with a matching name contributes its
identifier regardless of the query position and origin. -/
theorem C2_assign_global :
    ∀ (defs : List Jumpable) (origin : String) (sp : SearchParameter)
      (id : Identifier), Jumpable.Assign id ∈ defs →
      id.matches sp.name = true → id ∈ find_definitions defs origin sp := by
  intro defs origin sp id hmem hmatch
  refine mem_find_definitions_of_mem hmem ?_
  simp [find_definitions, hmatch]

/-- Witness for C2: a concrete assignment resolved from another origin and
an arbitrary position. -/
theorem C2_assign_global_witness :
    (⟨⟨4, 12⟩, ⟨4, 18⟩, some "testus"⟩ : Identifier) ∈
      find_definitions [Jumpable.Assign ⟨⟨4, 12⟩, ⟨4, 18⟩, some "testus"⟩]
        "a.nasl" ⟨"b.nasl", "testus", 99⟩ :=
  C2_assign_global _ _ _ _ (List.mem_singleton.mpr rfl) (by decide)

/-- Every entry of a built-in table is a parameterless `FunDef` whose end
position is the default point. -/
theorem new_builtin_entries (origin : String) (root : CNode) :
    ∀ j ∈ (OpenVASInBuildFunctions.new origin root).definitions,
      ∃ id, j = Jumpable.FunDef id [] ∧ id.endP = Point.default := by
  intro j hj
  simp [OpenVASInBuildFunctions.new] at hj
  obtain ⟨c, hc, t, pt, hmem, rfl⟩ := hj
  exact ⟨_, rfl, rfl⟩

/-- Resolution over parameterless `FunDef` lists depends only on the query
name. -/
theorem find_definitions_fundef_name_only :
    ∀ (l : List Jumpable), (∀ j ∈ l, ∃ id, j = Jumpable.FunDef id []) →
      ∀ (origin : String) (sp1 sp2 : SearchParameter), sp1.name = sp2.name →
        find_definitions l origin sp1 = find_definitions l origin sp2 := by
  intro l
  induction l with
  | nil => intro _ _ _ _ _; simp [find_definitions]
  | cons a rest ih =>
    intro h origin sp1 sp2 hname
    obtain ⟨id, ha⟩ := h a (List.mem_cons_self a rest)
    subst ha
    rw [find_definitions_cons, find_definitions_cons,
      ih (fun j hj => h j (List.mem_cons_of_mem _ hj)) origin sp1 sp2 hname]
    congr 1
    simp [find_definitions, verify_args, hname]

/-- Claim C10: built-in resolution depends only on the queried name; the
query position and origin never influence the result. -/
theorem C10_builtin_name_only :
    ∀ (origin : String) (root : CNode) (sp1 sp2 : SearchParameter),
      sp1.name = sp2.name →
      (OpenVASInBuildFunctions.new origin root).find_origin_location sp1 =
        (OpenVASInBuildFunctions.new origin root).find_origin_location sp2 := by
  intro origin root sp1 sp2 hname
  unfold OpenVASInBuildFunctions.find_origin_location
  rw [find_definitions_fundef_name_only _
    (fun j hj => ((new_builtin_entries origin root j hj).imp
      (fun i hh => hh.1))) _ _ _ hname]

/-- Witness for C10: two queries differing in origin and position agree on
the concrete `libfuncs` table. -/
theorem C10_builtin_name_only_witness :
    (OpenVASInBuildFunctions.new "nasl_init.c" cRoot).find_origin_location
        ⟨"x.nasl", "script_name", to_pos 9 9⟩ =
      (OpenVASInBuildFunctions.new "nasl_init.c" cRoot).find_origin_location
        ⟨"y.nasl", "script_name", 0⟩ :=
  C10_builtin_name_only _ _ _ _ rfl

/-- Counterexample for C6: a declaration whose scalar declarator defeats
the full descent is accepted even though it binds `othertable`, not
`libfuncs`. -/
theorem C6_libfuncs_guard_counterexample :
    libfuncs_descent cDeclOther = none ∧
    (OpenVASInBuildFunctions.new "nasl_init.c" cRootOther).definitions.isEmpty
      = false :=
  ⟨rfl, rfl⟩

/-- Characterization of the `libfuncs` guard: the resolver's output is the
unguarded emission, except that it is emptied exactly when the full
declarator descent succeeds with text other than `libfuncs`. -/
theorem naslfuncnames_eq_guard (n : CNode) :
    naslfuncnames n =
      match libfuncs_descent n with
      | some t => if t == "libfuncs" then emitted_entries n else []
      | none => emitted_entries n := by
  simp only [naslfuncnames, libfuncs_descent, emitted_entries]
  cases hk : (n.kind == "declaration") with
  | false => simp [hk]
  | true =>
    simp only [hk, if_true]
    rcases Option.eq_none_or_eq_some (n.child_by_field_name "declarator")
      with hd | ⟨d, hd⟩
    · simp [hd]
    · simp only [hd]
      cases hkd : (d.kind == "init_declarator") with
      | false => simp [hkd]
      | true =>
        simp only [hkd, if_true]
        rcases Option.eq_none_or_eq_some (d.child_by_field_name "declarator")
          with hd2 | ⟨d2, hd2⟩
        · simp [hd2]
        · simp only [hd2]
          rcases Option.eq_none_or_eq_some
              (d2.child_by_field_name "declarator") with hd3 | ⟨d3, hd3⟩
          · simp [hd3]
          · simp only [hd3, Option.map_some']
            cases ht : (d3.text == "libfuncs") with
            | true => simp [ht]
            | false => simp [ht]

/-- Claim C6 as amended: the initializer entries of a declaration are
rejected only when the full descent declarator → init_declarator →
declarator → declarator succeeds and reaches text other than `libfuncs`;
when the descent succeeds with `libfuncs`, and equally when it fails
partway, the entries are emitted exactly as the unguarded, declarator-blind
emission — regardless of the bound identifier's name. -/
theorem C6_libfuncs_guard_amended :
    (∀ (n : CNode) (t : String), libfuncs_descent n = some t →
      (t == "libfuncs") = false → naslfuncnames n = []) ∧
    (∀ n : CNode, libfuncs_descent n = some "libfuncs" →
      naslfuncnames n = emitted_entries n) ∧
    (∀ n : CNode, libfuncs_descent n = none →
      naslfuncnames n = emitted_entries n) := by
  refine ⟨?_, ?_, ?_⟩
  · intro n t h hne
    rw [naslfuncnames_eq_guard, h]
    simp [hne]
  · intro n h
    rw [naslfuncnames_eq_guard, h]
    simp
  · intro n h
    rw [naslfuncnames_eq_guard, h]

/-- Witness for the amended C6: an array declarator named `othertable`
makes the descent succeed with a non-`libfuncs` text, so nothing is
emitted; the scalar `othertable` declaration defeats the descent and its
entries equal the unguarded emission. -/
theorem C6_libfuncs_guard_amended_witness :
    naslfuncnames cDeclOtherArr = [] ∧
    naslfuncnames cDeclOther = emitted_entries cDeclOther :=
  ⟨C6_libfuncs_guard_amended.1 cDeclOtherArr "othertable" rfl rfl,
    C6_libfuncs_guard_amended.2.2 cDeclOther rfl⟩

/-- Counterexample for C7: the synthetic built-in identifier for
`script_name` starts at (3, 41) but ends at the default point (0, 0), so
`start ≤ end` fails. -/
theorem C7_start_le_end_counterexample :
    ((OpenVASInBuildFunctions.new "nasl_init.c" cRoot).definitions.all
      (fun j => j.identifiers.all Identifier.wfLe)) = false := by
  have h : (OpenVASInBuildFunctions.new "nasl_init.c" cRoot).definitions =
      [Jumpable.FunDef ⟨⟨3, 41⟩, Point.default, some "script_name"⟩ []] := rfl
  rw [h]
  simp [Jumpable.identifiers, Identifier.wfLe, Point.lexLe, Point.default]

/-- The stringifiable arguments are exactly the inner names of the string
literals. -/
theorem filterMap_to_string (args : List Argument) :
    args.filterMap Argument.to_string =
      args.flatMap (fun a =>
        match a with
        | Argument.StringLiteral sid => sid.identifier.toList) := by
  induction args with
  | nil => rfl
  | cons a rest ih =>
    cases a with
    | StringLiteral sid =>
      cases hsid : sid.identifier <;>
        simp [Argument.to_string, hsid, ih, Option.toList]

/-- The include accumulator of the extraction loop appends exactly the
specification's include list. -/
theorem of_jumps_foldl_snd (jumps : List Jumpable) :
    ∀ acc : List Jumpable × List String,
      (jumps.foldl of_jumps_step acc).2 = acc.2 ++ includes_spec jumps := by
  induction jumps with
  | nil => intro acc; simp [includes_spec]
  | cons j rest ih =>
    intro acc
    rw [List.foldl_cons, ih]
    cases j with
    | CallExpression id args =>
      cases hid : id.identifier with
      | none =>
        simp [of_jumps_step, Jumpable.is_definition, includes_spec, hid]
      | some name =>
        cases hn : (name == "include") with
        | true =>
          have he : name = "include" := by simpa using hn
          subst he
          simp [of_jumps_step, Jumpable.is_definition, includes_spec, hid,
            filterMap_to_string]
        | false =>
          have he : ¬ name = "include" := by simpa using hn
          simp [of_jumps_step, Jumpable.is_definition, includes_spec, hid, he]
    | FunDef id params =>
      simp [of_jumps_step, Jumpable.is_definition, includes_spec]
    | IfDef id params =>
      simp [of_jumps_step, Jumpable.is_definition, includes_spec]
    | Assign id =>
      simp [of_jumps_step, Jumpable.is_definition, includes_spec]
    | Block id defs =>
      simp [of_jumps_step, Jumpable.is_definition, includes_spec]

/-- The extracted include list is the specification's include list. -/
theorem of_jumps_includes (origin : String) (jumps : List Jumpable) :
    (NASLDefinitions.of_jumps origin jumps).includes = includes_spec jumps := by
  unfold NASLDefinitions.of_jumps
  simp [NASLDefinitions.includes, of_jumps_foldl_snd]

/-- Claim C5: a file's `includes` are, in source order, exactly the inner
names of the string-literal arguments of every call whose callee name is
`include`; other calls and arguments contribute nothing. -/
theorem C5_include_extraction :
    (∀ (origin : String) (jumps : List Jumpable),
      (NASLDefinitions.of_jumps origin jumps).includes = includes_spec jumps) ∧
    (∀ (origin : String) (node : CNode),
      (NASLDefinitions.new origin node).includes =
        includes_spec (node.jumpable ⟨origin, none⟩)) :=
  ⟨of_jumps_includes, fun origin node => of_jumps_includes origin _⟩

/-- Reassociation of the loader's candidate pipeline: mapping, stripping,
filtering and loading distribute over the include-major flat map. -/
theorem chain_flatMap {α β γ : Type} (l : List α) (f : α → List β)
    (g : β → β) (h : β → Bool) (k : β → List γ) :
    (((l.flatMap f).map g).filter h).flatMap k =
      l.flatMap (fun i => ((((f i).map g).filter h).flatMap k)) := by
  induction l with
  | nil => rfl
  | cons a t ih => simp [ih]

/-- Claim C4: the include loader equals the specification's loader — the
root file's definitions first, then for each include name in source order
and each root the candidate `root + "/" + name`, scheme-stripped,
existence-filtered, loaded depth-first. -/
theorem C4_include_loader :
    ∀ (fuel : Nat) (φ : FS) (path : String) (paths : List String)
      (code : Option String),
      new_with_includes fuel φ path paths code =
        load_spec fuel φ path paths code := by
  intro fuel φ
  induction fuel with
  | zero => intro path paths code; rfl
  | succ fuel ih =>
    intro path paths code
    simp only [new_with_includes, load_spec]
    cases hc : (match code with | some c => some c | none => φ.read path) with
    | none => rfl
    | some c =>
      cases hp : new_parse_tree φ path c with
      | none => simp [hp]
      | some init =>
        simp only [hp, Option.some.injEq, List.cons.injEq, true_and]
        rw [chain_flatMap]
        refine congrArg _ (funext fun i => ?_)
        refine congrArg _ (funext fun p => ?_)
        rw [ih p paths none]
        cases load_spec fuel φ p paths none <;> rfl

/-- Flat-mapping over an attached list ignores the membership proofs. -/
theorem attach_flatMap {α β : Type} (l : List α) (f : α → List β) :
    l.attach.flatMap (fun x => f x.1) = l.flatMap f := by
  induction l with
  | nil => simp
  | cons x xs ih => simp [List.attach_cons, List.flatMap_map]

/-- Unfolded equation for the extractor's top walk. -/
theorem jumpable_eq (n : CNode) (container : CodeContainer) :
    n.jumpable container = n.children.flatMap (fun c =>
      c.func_def container ++ c.expression_statement ++
        c.compound_statement container ++ c.if_statement container) := by
  rw [CNode.jumpable]
  exact attach_flatMap n.children (fun c =>
    c.func_def container ++ c.expression_statement ++
      c.compound_statement container ++ c.if_statement container)

/-- Unfolded equation for function-definition extraction. -/
theorem func_def_eq (n : CNode) (container : CodeContainer) :
    n.func_def container = if n.kind == "function_definition" then
      n.children.flatMap (fun c =>
        match c.func_declarator ⟨container.origin, some n⟩ with
        | some fd => [fd]
        | none => c.compound_statement container)
    else [] := by
  rw [CNode.func_def]
  split
  · exact attach_flatMap n.children (fun c =>
      match c.func_declarator ⟨container.origin, some n⟩ with
      | some fd => [fd]
      | none => c.compound_statement container)
  · rfl

/-- Unfolded equation for binary-expression extraction. -/
theorem binary_expression_eq (n : CNode) :
    n.binary_expression = if n.kind == "binary_expression" then
      n.children.flatMap (fun c => c.parenthesized_expression)
    else [] := by
  rw [CNode.binary_expression]
  split
  · exact attach_flatMap n.children (fun c => c.parenthesized_expression)
  · rfl

/-- Unfolded equation for parenthesized-expression extraction. -/
theorem parenthesized_expression_eq (n : CNode) :
    n.parenthesized_expression = if n.kind == "parenthesized_expression" then
      n.children.flatMap (fun c =>
        c.binary_expression ++ c.assignment_expression ++
          c.parenthesized_expression)
    else [] := by
  rw [CNode.parenthesized_expression]
  split
  · exact attach_flatMap n.children (fun c =>
      c.binary_expression ++ c.assignment_expression ++
        c.parenthesized_expression)
  · rfl

/-- Nothing to check on the empty list. -/
theorem idsOk_nil : IdsOk [] := by
  intro j hj
  cases hj

/-- Splitting `IdsOk` over an append. -/
theorem idsOk_append {a b : List Jumpable} (ha : IdsOk a) (hb : IdsOk b) :
    IdsOk (a ++ b) := by
  intro j hj
  rcases List.mem_append.mp hj with h | h
  · exact ha j h
  · exact hb j h

/-- `IdsOk` over a flat map follows from the per-element property. -/
theorem idsOk_flatMap {α : Type} {l : List α} {f : α → List Jumpable}
    (h : ∀ c ∈ l, IdsOk (f c)) : IdsOk (l.flatMap f) := by
  intro j hj
  rw [List.mem_flatMap] at hj
  obtain ⟨c, hc, hjc⟩ := hj
  exact h c hc j hjc

/-- A well-formed node's own range is ordered. -/
theorem wfB_point {n : CNode} (h : n.wfB = true) :
    Point.lexLe n.start_position n.end_position := by
  cases n with
  | mk k t s e fs cs =>
    simp [CNode.wfB] at h
    simpa [CNode.start_position, CNode.end_position] using h.1.1

/-- Well-formedness of a child list passes to each member. -/
theorem wfChildren_mem : ∀ {l : List CNode} {c : CNode},
    wfChildren l = true → c ∈ l → c.wfB = true := by
  intro l
  induction l with
  | nil => intro c _ hc; cases hc
  | cons a rest ih =>
    intro c h hc
    simp [wfChildren] at h
    rcases List.mem_cons.mp hc with rfl | hc
    · exact h.1
    · exact ih h.2 hc

/-- Well-formedness of a field list passes to each field child. -/
theorem wfFields_mem : ∀ {l : List (String × CNode)} {s : String} {c : CNode},
    wfFields l = true → (s, c) ∈ l → c.wfB = true := by
  intro l
  induction l with
  | nil => intro s c _ hc; cases hc
  | cons a rest ih =>
    intro s c h hc
    cases a with
    | mk a1 a2 =>
      simp [wfFields] at h
      rcases List.mem_cons.mp hc with he | hc
      · cases he
        exact h.1
      · exact ih h.2 hc

/-- A well-formed node's named children are well formed. -/
theorem wfB_child {n c : CNode} (h : n.wfB = true) (hm : c ∈ n.children) :
    c.wfB = true := by
  cases n with
  | mk k t s e fs cs =>
    simp [CNode.wfB] at h
    exact wfChildren_mem h.2 hm

/-- A well-formed node's field children are well formed. -/
theorem wfB_field {n c : CNode} {f : String} (h : n.wfB = true)
    (hf : n.child_by_field_name f = some c) : c.wfB = true := by
  unfold CNode.child_by_field_name at hf
  cases hfind : (n.fields.find? (fun p => p.1 == f)) with
  | none => rw [hfind] at hf; simp at hf
  | some p =>
    rw [hfind] at hf
    simp at hf
    have hm : p ∈ n.fields := List.mem_of_find?_eq_some hfind
    cases n with
    | mk k t s e fs cs =>
      simp [CNode.wfB] at h
      cases p with
      | mk p1 p2 =>
        cases hf
        exact wfFields_mem h.1.2 hm

/-- An identifier extracted from a well-formed node has an ordered range. -/
theorem identifier_wfLe {c : CNode} {id : Identifier} (hw : c.wfB = true)
    (h : c.identifier = some id) : id.wfLe = true := by
  unfold CNode.identifier at h
  split at h
  · obtain rfl := Option.some.inj h
    simpa [Identifier.wfLe] using wfB_point hw
  · cases h

/-- Parameters extracted from a well-formed node have ordered ranges. -/
theorem parameter_list_wf {n : CNode} (hw : n.wfB = true) :
    ∀ id ∈ n.parameter_list, id.wfLe = true := by
  intro id hid
  unfold CNode.parameter_list at hid
  split at hid
  · rw [CNode.named_children, List.mem_filterMap] at hid
    obtain ⟨c, hc, hcid⟩ := hid
    exact identifier_wfLe (wfB_child hw hc) hcid
  · cases hid

/-- A function declarator of a well-formed node under a well-formed parent
yields only ordered identifiers. -/
theorem func_declarator_wf {n : CNode} {container : CodeContainer}
    {j : Jumpable} (hw : n.wfB = true) (hco : containerOk container = true)
    (h : n.func_declarator container = some j) :
    ∀ i ∈ j.identifiers, i.wfLe = true := by
  unfold CNode.func_declarator at h
  split at h
  · cases hd : n.child_by_field_name "declarator" with
    | none => simp [hd] at h
    | some c =>
      simp only [hd] at h
      cases hcid : c.identifier with
      | none => simp [hcid] at h
      | some x =>
        simp only [hcid] at h
        cases hp : container.parent with
        | none => simp [hp] at h
        | some p =>
          simp only [hp] at h
          obtain rfl := Option.some.inj h
          intro i hi
          simp only [Jumpable.identifiers] at hi
          rcases List.mem_cons.mp hi with rfl | hip
          · unfold containerOk at hco
            simp only [hp] at hco
            simpa [Identifier.wfLe] using of_decide_eq_true hco
          · cases hpar : n.child_by_field_name "parameters" with
            | none => rw [hpar] at hip; simp at hip
            | some c2 =>
              rw [hpar] at hip
              simp only [Option.map_some', Option.getD_some] at hip
              exact parameter_list_wf (wfB_field hw hpar) i hip
  · cases h

/-- Assignments extracted from a well-formed node carry ordered
identifiers. -/
theorem assignment_expression_wf {n : CNode} (hw : n.wfB = true) :
    IdsOk n.assignment_expression := by
  intro j hj
  unfold CNode.assignment_expression at hj
  split at hj
  · cases hd : n.child_by_field_name "left" with
    | none => simp [hd] at hj
    | some c =>
      simp only [hd] at hj
      cases hcid : c.identifier with
      | none => simp [hcid] at hj
      | some id =>
        simp only [hcid] at hj
        obtain rfl := List.mem_singleton.mp hj
        intro i hi
        simp only [Jumpable.identifiers] at hi
        obtain rfl := List.mem_singleton.mp hi
        exact identifier_wfLe (wfB_field hw hd) hcid
  · cases hj

/-- A retained string literal of a well-formed node has an ordered inner
identifier. -/
theorem string_literal_wf {c : CNode} {a : Argument} (hw : c.wfB = true)
    (h : c.string_literal = some a) :
    ∃ sid, a = Argument.StringLiteral sid ∧ sid.wfLe = true := by
  unfold CNode.string_literal at h
  split at h
  · cases hh : c.named_children.head? with
    | none => simp [hh] at h
    | some sln =>
      simp only [hh] at h
      split at h
      · obtain rfl := Option.some.inj h
        refine ⟨_, rfl, ?_⟩
        have hm : sln ∈ c.children := by
          refine List.mem_of_mem_head? ?_
          rw [CNode.named_children] at hh
          rw [hh]
          rfl
        have hws := wfB_child hw hm
        simpa [Identifier.wfLe] using wfB_point hws
      · cases h
  · cases h

/-- Arguments extracted from a well-formed node are string literals with
ordered inner identifiers. -/
theorem argument_list_wf {n : CNode} (hw : n.wfB = true) :
    ∀ a ∈ n.argument_list,
      ∃ sid, a = Argument.StringLiteral sid ∧ sid.wfLe = true := by
  intro a ha
  unfold CNode.argument_list at ha
  split at ha
  · rw [CNode.named_children, List.mem_filterMap] at ha
    obtain ⟨c, hc, hca⟩ := ha
    exact string_literal_wf (wfB_child hw hc) hca
  · cases ha

/-- A call expression of a well-formed node carries ordered identifiers. -/
theorem call_expression_wf {n : CNode} (hw : n.wfB = true) :
    IdsOk n.call_expression := by
  intro j hj
  unfold CNode.call_expression at hj
  split at hj
  · cases hnf : n.child_by_field_name "function" with
    | none => simp [hnf] at hj
    | some nf =>
      simp only [hnf] at hj
      cases hid : nf.identifier with
      | none => simp [hid] at hj
      | some id =>
        simp only [hid] at hj
        have hidw : id.wfLe = true := identifier_wfLe (wfB_field hw hnf) hid
        cases han : n.child_by_field_name "arguments" with
        | none =>
          simp only [han] at hj
          obtain rfl := List.mem_singleton.mp hj
          intro i hi
          simp only [Jumpable.identifiers, List.map_nil] at hi
          obtain rfl := List.mem_singleton.mp hi
          exact hidw
        | some an =>
          simp only [han] at hj
          obtain rfl := List.mem_singleton.mp hj
          intro i hi
          simp only [Jumpable.identifiers] at hi
          rcases List.mem_cons.mp hi with rfl | him
          · exact hidw
          · rw [List.mem_map] at him
            obtain ⟨a, haarg, hia⟩ := him
            obtain ⟨sid, rfl, hsw⟩ := argument_list_wf (wfB_field hw han) a haarg
            simp only at hia
            exact hia ▸ hsw
  · cases hj

/-- An expression statement of a well-formed node carries ordered
identifiers. -/
theorem expression_statement_wf {n : CNode} (hw : n.wfB = true) :
    IdsOk n.expression_statement := by
  unfold CNode.expression_statement
  split
  · rw [CNode.named_children]
    apply idsOk_flatMap
    intro c hc
    exact idsOk_append (call_expression_wf (wfB_child hw hc))
      (assignment_expression_wf (wfB_child hw hc))
  · exact idsOk_nil

/-- The definition accumulator of the extraction loop appends exactly the
definition entries. -/
theorem of_jumps_foldl_fst (jumps : List Jumpable) :
    ∀ acc : List Jumpable × List String,
      (jumps.foldl of_jumps_step acc).1 =
        acc.1 ++ jumps.filter Jumpable.is_definition := by
  induction jumps with
  | nil => intro acc; simp
  | cons j rest ih =>
    intro acc
    rw [List.foldl_cons, ih]
    cases j with
    | CallExpression id args =>
      cases hid : id.identifier with
      | none => simp [of_jumps_step, Jumpable.is_definition, hid]
      | some name =>
        cases hn : (name == "include") with
        | true => simp [of_jumps_step, Jumpable.is_definition, hid, hn]
        | false => simp [of_jumps_step, Jumpable.is_definition, hid, hn]
    | FunDef id params => simp [of_jumps_step, Jumpable.is_definition]
    | IfDef id params => simp [of_jumps_step, Jumpable.is_definition]
    | Assign id => simp [of_jumps_step, Jumpable.is_definition]
    | Block id defs => simp [of_jumps_step, Jumpable.is_definition]

/-- Every definition entry of an extraction came from the jump list. -/
theorem of_jumps_defs_subset (origin : String) (jumps : List Jumpable) :
    ∀ j ∈ (NASLDefinitions.of_jumps origin jumps).definitions, j ∈ jumps := by
  intro j hj
  unfold NASLDefinitions.of_jumps at hj
  simp only [NASLDefinitions.definitions, of_jumps_foldl_fst,
    List.nil_append] at hj
  exact List.mem_of_mem_filter hj

/-- An identifier of a jump list belongs to one of its entries. -/
theorem mem_jumpList {i : Identifier} :
    ∀ {l : List Jumpable}, i ∈ jumpList_identifiers l →
      ∃ j ∈ l, i ∈ j.identifiers := by
  intro l
  induction l with
  | nil => intro h; simp [jumpList_identifiers] at h
  | cons j rest ih =>
    intro h
    simp only [jumpList_identifiers] at h
    rcases List.mem_append.mp h with h1 | h2
    · exact ⟨j, List.mem_cons_self j rest, h1⟩
    · obtain ⟨j2, hj2, hi⟩ := ih h2
      exact ⟨j2, List.mem_cons_of_mem _ hj2, hi⟩

/-- Binary and parenthesized expressions of a well-formed node carry only
ordered identifiers. -/
theorem paren_binary_wf :
    ∀ (N : Nat) (n : CNode), sizeOf n ≤ N → n.wfB = true →
      IdsOk n.binary_expression ∧ IdsOk n.parenthesized_expression := by
  intro N
  induction N with
  | zero =>
    intro n hn _
    exfalso
    cases n with
    | mk k t s e fs cs => simp only [CNode.mk.sizeOf_spec] at hn; omega
  | succ N ih =>
    intro n hn hw
    have hchild : ∀ c ∈ n.children, sizeOf c ≤ N := by
      intro c hc
      have := sizeOf_child_lt hc
      omega
    constructor
    · rw [binary_expression_eq]
      split
      · exact idsOk_flatMap (fun c hc =>
          (ih c (hchild c hc) (wfB_child hw hc)).2)
      · exact idsOk_nil
    · rw [parenthesized_expression_eq]
      split
      · refine idsOk_flatMap (fun c hc => ?_)
        have hcw := wfB_child hw hc
        have H := ih c (hchild c hc) hcw
        exact idsOk_append (idsOk_append H.1 (assignment_expression_wf hcw))
          H.2
      · exact idsOk_nil

/-- The four mutually recursive extraction walks of a well-formed node,
under a container whose parent has an ordered range, produce only ordered
identifiers. -/
theorem extractor_wf :
    ∀ (N : Nat) (n : CNode), sizeOf n ≤ N → n.wfB = true →
      (∀ container, containerOk container = true →
        IdsOk (n.jumpable container)) ∧
      (∀ container, containerOk container = true →
        IdsOk (n.func_def container)) ∧
      (∀ container, containerOk container = true →
        IdsOk (n.compound_statement container)) ∧
      (∀ container, containerOk container = true →
        IdsOk (n.if_statement container)) := by
  intro N
  induction N with
  | zero =>
    intro n hn _
    exfalso
    cases n with
    | mk k t s e fs cs => simp only [CNode.mk.sizeOf_spec] at hn; omega
  | succ N ih =>
    intro n hn hw
    have hchild : ∀ c ∈ n.children, sizeOf c ≤ N := by
      intro c hc
      have := sizeOf_child_lt hc
      omega
    have hfield : ∀ (f : String) (c : CNode),
        n.child_by_field_name f = some c → sizeOf c ≤ N := by
      intro f c hc
      have := sizeOf_field_lt hc
      omega
    have hjump : ∀ container, containerOk container = true →
        IdsOk (n.jumpable container) := by
      intro container hco
      rw [jumpable_eq]
      refine idsOk_flatMap (fun c hc => ?_)
      have hcw := wfB_child hw hc
      have H := ih c (hchild c hc) hcw
      exact idsOk_append (idsOk_append (idsOk_append (H.2.1 container hco)
        (expression_statement_wf hcw)) (H.2.2.1 container hco))
        (H.2.2.2 container hco)
    have hfunc : ∀ container, containerOk container = true →
        IdsOk (n.func_def container) := by
      intro container hco
      rw [func_def_eq]
      split
      · refine idsOk_flatMap (fun c hc => ?_)
        have hcw := wfB_child hw hc
        cases hfd : c.func_declarator ⟨container.origin, some n⟩ with
        | some fd =>
          intro j hj
          obtain rfl := List.mem_singleton.mp hj
          refine func_declarator_wf hcw ?_ hfd
          unfold containerOk
          exact decide_eq_true (wfB_point hw)
        | none => exact (ih c (hchild c hc) hcw).2.2.1 container hco
      · exact idsOk_nil
    have hcomp : ∀ container, containerOk container = true →
        IdsOk (n.compound_statement container) := by
      intro container hco
      rw [CNode.compound_statement]
      split
      · intro j hj
        obtain rfl := List.mem_singleton.mp hj
        intro i hi
        cases hin : NASLDefinitions.of_jumps container.origin
            (n.jumpable ⟨container.origin, none⟩) with
        | mk ds o inc =>
          rw [hin] at hi
          simp only [Jumpable.identifiers] at hi
          rcases List.mem_cons.mp hi with rfl | him
          · simpa [Identifier.wfLe] using wfB_point hw
          · obtain ⟨j2, hj2, hi2⟩ := mem_jumpList him
            have hsub := of_jumps_defs_subset container.origin
              (n.jumpable ⟨container.origin, none⟩)
            rw [hin] at hsub
            exact hjump ⟨container.origin, none⟩ rfl j2
              (hsub j2 (by simpa [NASLDefinitions.definitions] using hj2))
              i hi2
      · exact idsOk_nil
    have hif : ∀ container, containerOk container = true →
        IdsOk (n.if_statement container) := by
      intro container hco
      rw [CNode.if_statement]
      split
      · refine idsOk_append (idsOk_append ?_ ?_) ?_
        · cases hcond : n.child_by_field_name "condition" with
          | none => exact idsOk_nil
          | some c =>
            intro j hj
            obtain rfl := List.mem_singleton.mp hj
            intro i hi
            simp only [Jumpable.identifiers] at hi
            rcases List.mem_cons.mp hi with rfl | him
            · simpa [Identifier.wfLe] using wfB_point hw
            · rw [List.mem_filterMap] at him
              obtain ⟨j0, hj0, hmatch⟩ := him
              have hpw := (paren_binary_wf (sizeOf c) c le_rfl
                (wfB_field hw hcond)).2
              have hthis := hpw j0 hj0
              cases j0 with
              | Assign id0 =>
                simp only at hmatch
                obtain rfl := Option.some.inj hmatch
                exact hthis id0 (by simp [Jumpable.identifiers])
              | FunDef id0 params => simp at hmatch
              | IfDef id0 params => simp at hmatch
              | Block id0 defs => simp at hmatch
              | CallExpression id0 args => simp at hmatch
        · cases hcons : n.child_by_field_name "consequence" with
          | none => exact idsOk_nil
          | some c =>
            have hcw := wfB_field hw hcons
            exact idsOk_append
              ((ih c (hfield _ c hcons) hcw).2.2.1 container hco)
              (expression_statement_wf hcw)
        · cases halt : n.child_by_field_name "alternative" with
          | none => exact idsOk_nil
          | some c =>
            have hcw := wfB_field hw halt
            have H := ih c (hfield _ c halt) hcw
            exact idsOk_append (idsOk_append (H.2.2.2 container hco)
              (H.2.2.1 container hco)) (expression_statement_wf hcw)
      · exact idsOk_nil
    exact ⟨hjump, hfunc, hcomp, hif⟩

/-- Claim C7 as amended: identifiers produced by the NASL extractor copy a
single CST node's (or the parent's) start and end positions and therefore
satisfy `start ≤ end` whenever the CST's node ranges are ordered; the
built-in resolver's synthetic `FunDef` identifiers instead carry the
default point as end position, so `start ≤ end` fails for any entry whose
literal does not start at the zero position. -/
theorem C7_identifier_ranges_amended :
    (∀ (origin : String) (root : CNode),
      ∀ j ∈ (OpenVASInBuildFunctions.new origin root).definitions,
        ∃ id, j = Jumpable.FunDef id [] ∧ id.endP = Point.default) ∧
    (∀ (n : CNode) (container : CodeContainer), n.wfB = true →
      containerOk container = true →
      ∀ j ∈ n.jumpable container, ∀ i ∈ j.identifiers, i.wfLe = true) ∧
    (∀ (origin : String) (n : CNode), n.wfB = true →
      ∀ j ∈ (NASLDefinitions.new origin n).definitions,
        ∀ i ∈ j.identifiers, i.wfLe = true) := by
  refine ⟨new_builtin_entries, ?_, ?_⟩
  · intro n container hw hco
    exact (extractor_wf (sizeOf n) n le_rfl hw).1 container hco
  · intro origin n hw j hj i hi
    have hsub := of_jumps_defs_subset origin (n.jumpable ⟨origin, none⟩)
    have hjm : j ∈ n.jumpable ⟨origin, none⟩ :=
      hsub j (by simpa [NASLDefinitions.new] using hj)
    exact (extractor_wf (sizeOf n) n le_rfl hw).1 ⟨origin, none⟩ rfl j hjm i hi

/-- Witness for the amended C7 on the concrete `b = 1;` tree. -/
theorem C7_identifier_ranges_amended_witness :
    ((nRoot.jumpable ⟨"/a.nasl", none⟩).all
      (fun j => j.identifiers.all Identifier.wfLe)) = true := by
  have h := C7_identifier_ranges_amended.2.1 nRoot ⟨"/a.nasl", none⟩
    (by
      simp only [nRoot, nExprStmt, nAssign, nAssignLeft, CNode.wfB,
        wfFields, wfChildren]
      decide) rfl
  rw [List.all_eq_true]
  intro j hj
  rw [List.all_eq_true]
  intro i hi
  exact h j hj i hi

/-- Claim C3: the built-in resolver is consulted exactly when the
accumulated NASL location list is empty — a non-empty accumulation is
returned untouched, independent of the cached built-ins, and an empty one
is answered from the built-in table alone. -/
theorem C3_builtin_fallback :
    ∀ (φ : FS) (cache : Cache) (fuel : Nat) (path : String)
      (line character : Nat) (code : String) (sp : SearchParameter)
      (found : List Location),
      φ.read path = some code →
      search_parameter φ.parseNasl path code line character = some sp →
      nasl_locations ((new_with_includes fuel φ path cache.paths
        (some code)).getD []) sp = found →
      (found ≠ [] →
        handle φ cache fuel path line character = some found) ∧
      (found = [] → ∀ b, cache.internal = some b →
        handle φ cache fuel path line character =
          some (builtin_locations b sp)) := by
  intro φ cache fuel path line character code sp found hread hsp hfound
  constructor
  · intro hne
    simp only [handle, hread, hsp, hfound]
    cases found with
    | nil => exact absurd rfl hne
    | cons a l => rfl
  · intro hemp b hb
    subst hemp
    simp [handle, hread, hsp, hfound, hb]

/-- Witness for C3: on the concrete `b = 1;` file the assignment is found,
so the response is the NASL location even though the cache holds a
built-in table. -/
theorem C3_builtin_fallback_witness :
    handle fsW cacheW 1 "/a.nasl" 0 0 =
      some [{ uri := "file://" ++ "/a.nasl", range := (⟨0, 0⟩, ⟨0, 0⟩) }] := by
  have hsp : search_parameter fsW.parseNasl "/a.nasl" "b = 1;" 0 0 =
      some ⟨"/a.nasl", "b", to_pos 0 0⟩ := by
    norm_num [search_parameter, fsW, find_identifier, find_identifier_list,
      nRoot, nExprStmt, nAssign, nAssignLeft, to_pos]
  have hnw : new_with_includes 1 fsW "/a.nasl" cacheW.paths
      (some "b = 1;") = some [NASLDefinitions.mk
        [Jumpable.Assign ⟨⟨0, 0⟩, ⟨0, 1⟩, some "b"⟩] "/a.nasl" []] := by
    have h1 : nExprStmt.func_def ⟨"/a.nasl", none⟩ = [] := by
      rw [func_def_eq]
      simp [nExprStmt, CNode.kind]
    have h2 : nExprStmt.compound_statement ⟨"/a.nasl", none⟩ = [] := by
      rw [CNode.compound_statement]
      simp [nExprStmt, CNode.kind]
    have h3 : nExprStmt.if_statement ⟨"/a.nasl", none⟩ = [] := by
      rw [CNode.if_statement]
      simp [nExprStmt, CNode.kind]
    have h4 : nExprStmt.expression_statement =
        [Jumpable.Assign ⟨⟨0, 0⟩, ⟨0, 1⟩, some "b"⟩] := by
      simp [CNode.expression_statement, nExprStmt, CNode.kind,
        CNode.named_children, CNode.children, nAssign, CNode.call_expression,
        CNode.assignment_expression, CNode.child_by_field_name, CNode.fields,
        nAssignLeft, CNode.identifier, CNode.start_position,
        CNode.end_position, CNode.text]
    have hjl : nRoot.jumpable ⟨"/a.nasl", none⟩ =
        [Jumpable.Assign ⟨⟨0, 0⟩, ⟨0, 1⟩, some "b"⟩] := by
      rw [jumpable_eq]
      simp [nRoot, CNode.children, h1, h2, h3, h4]
    have hnew : NASLDefinitions.new "/a.nasl" nRoot = NASLDefinitions.mk
        [Jumpable.Assign ⟨⟨0, 0⟩, ⟨0, 1⟩, some "b"⟩] "/a.nasl" [] := by
      simp [NASLDefinitions.new, hjl, NASLDefinitions.of_jumps,
        of_jumps_step, Jumpable.is_definition]
    simp [new_with_includes, new_parse_tree, fsW, cacheW, hnew,
      NASLDefinitions.includes]
  have hfound : nasl_locations ((new_with_includes 1 fsW "/a.nasl"
      cacheW.paths (some "b = 1;")).getD [])
      ⟨"/a.nasl", "b", to_pos 0 0⟩ =
      [{ uri := "file://" ++ "/a.nasl", range := (⟨0, 0⟩, ⟨0, 0⟩) }] := by
    rw [hnw]
    simp [nasl_locations, NASLDefinitions.find_points,
      NASLDefinitions.definitions, NASLDefinitions.origin, find_definitions,
      Identifier.matches, location]
  exact (C3_builtin_fallback fsW cacheW 1 "/a.nasl" 0 0 "b = 1;"
    ⟨"/a.nasl", "b", to_pos 0 0⟩ _ rfl hsp hfound).1 (by simp)

/-- Counterexample for C9: when the primary file cannot be read the
response's result is `null`, not an array. -/
theorem C9_null_result_counterexample :
    (respond ⟨fun _ => none, fun _ => false, fun _ => none⟩ ⟨[], none⟩ 1
      "/a.nasl" 0 0).result = some JsonResult.null ∧
    ¬ ∃ locs, (respond ⟨fun _ => none, fun _ => false, fun _ => none⟩
      ⟨[], none⟩ 1 "/a.nasl" 0 0).result = some (JsonResult.arr locs) := by
  constructor
  · rfl
  · rintro ⟨locs, h⟩
    simp [respond, handle, send_response] at h

/-- Claim C9 as amended: the handler never surfaces an LSP error and every
response carries a result field; when the primary file is readable and an
identifier is under the cursor the result is a (possibly empty) array,
while a failure to read the primary file, or to locate an identifier under
the cursor, yields a `null` result instead of an array. -/
theorem C9_response_amended :
    ∀ (φ : FS) (cache : Cache) (fuel : Nat) (path : String)
      (line character : Nat),
      (respond φ cache fuel path line character).error = none ∧
      ((respond φ cache fuel path line character).result).isSome = true ∧
      (∀ code sp, φ.read path = some code →
        search_parameter φ.parseNasl path code line character = some sp →
        ∃ locs, (respond φ cache fuel path line character).result =
          some (JsonResult.arr locs)) ∧
      (φ.read path = none →
        (respond φ cache fuel path line character).result =
          some JsonResult.null) ∧
      (∀ code, φ.read path = some code →
        search_parameter φ.parseNasl path code line character = none →
        (respond φ cache fuel path line character).result =
          some JsonResult.null) := by
  intro φ cache fuel path line character
  refine ⟨rfl, rfl, ?_, ?_, ?_⟩
  · intro code sp hread hsp
    simp only [respond, handle, hread, hsp, send_response]
    exact ⟨_, rfl⟩
  · intro hread
    simp only [respond, handle, hread, send_response]
  · intro code hread hsp
    simp only [respond, handle, hread, hsp, send_response]

/-- Witness for the amended C9 on the concrete `b = 1;` environment. -/
theorem C9_response_amended_witness :
    (respond fsW cacheW 1 "/a.nasl" 0 0).error = none ∧
    ∃ locs, (respond fsW cacheW 1 "/a.nasl" 0 0).result =
      some (JsonResult.arr locs) := by
  have hsp : search_parameter fsW.parseNasl "/a.nasl" "b = 1;" 0 0 =
      some ⟨"/a.nasl", "b", to_pos 0 0⟩ := by
    norm_num [search_parameter, fsW, find_identifier, find_identifier_list,
      nRoot, nExprStmt, nAssign, nAssignLeft, to_pos]
  have H := C9_response_amended fsW cacheW 1 "/a.nasl" 0 0
  exact ⟨H.1, H.2.2.1 "b = 1;" ⟨"/a.nasl", "b", to_pos 0 0⟩ rfl hsp⟩

end NaslAnalyzer
